import Mathlib

/-!
Shallow embedding of the tmap FPGA technology mapper
(AndInverterGraph, Cut, CutSet, CutEngine, TechMapper, main driver).

Unsigned ints are modelled as Nat.  The cost sentinel is the maximum
32-bit unsigned value; cost arithmetic in the source (max of delays,
1 + delay, set cardinalities) stays far below the wrap-around point for
every AIG representable in the source's 32-bit literal space, so plain
Nat is a faithful model of the reachable arithmetic.  Fallible code
(throwing std::runtime_error / std::overflow_error) is modelled with
Except String.  The explicit work stack in CutEngine::findCuts and the
frontier loop in TechMapper::run are modelled with a fuel parameter;
running out of fuel is an artificial error distinct from any source
error.
-/

/-- Sentinel for an unset cost: the maximum value of a 32-bit unsigned,
used by the source as the reserved "cost unset" value. -/
def UNSETCOST : Nat := 4294967295

/-- Decidable equality for Except results, used to evaluate the model
on concrete inputs. -/
instance {α : Type} [DecidableEq α] : DecidableEq (Except String α)
  | .ok a, .ok b =>
      if h : a = b then .isTrue (by rw [h])
      else .isFalse (by intro hh; injection hh; contradiction)
  | .error a, .error b =>
      if h : a = b then .isTrue (by rw [h])
      else .isFalse (by intro hh; injection hh; contradiction)
  | .ok _, .error _ => .isFalse (by intro hh; cases hh)
  | .error _, .ok _ => .isFalse (by intro hh; cases hh)

/-- Model of class Cut: a set of node variables (polarity stripped) plus
three scalar costs. -/
structure Cut where
  leaves : Finset Nat
  areaCost : Nat
  delayCost : Nat
  powerCost : Nat
deriving DecidableEq

/-- Cut::numNodeVariables. -/
def Cut.numNodeVariables (c : Cut) : Nat := c.leaves.card

/-- Cut::isEmptyCut. -/
def Cut.isEmptyCut (c : Cut) : Bool := c.leaves = ∅

/-- Cut::allCostsSet : false when any of the three costs holds the
sentinel. -/
def Cut.allCostsSet (c : Cut) : Bool :=
  ¬(c.areaCost = UNSETCOST ∨ c.delayCost = UNSETCOST ∨ c.powerCost = UNSETCOST)

/-- Cut::operator== : equality tests only the variable sets. -/
def cutEq (a b : Cut) : Bool :=
  if a.leaves = b.leaves then true else false

/-- Cut::operator+ : union of two cuts.  Rejects empty-leaf operands;
the result carries the set union and all three costs unset. -/
def cutUnion (a b : Cut) : Except String Cut :=
  if a.leaves = ∅ ∨ b.leaves = ∅ then
    .error "The union of two cuts (operator +) cannot be evaluated if any of the two cuts have an empty variable set."
  else
    .ok { leaves := a.leaves ∪ b.leaves,
          areaCost := UNSETCOST, delayCost := UNSETCOST, powerCost := UNSETCOST }

/-- CutSet::emplace, insertion part: if an equal cut (by leaves) is
already present the sequence is unchanged, otherwise the new cut is
appended. -/
def emplaceCut (s : List Cut) (c : Cut) : List Cut :=
  if s.any (fun w => cutEq w c) then s else s ++ [c]

/-- CutSet::emplace, "was inserted" flag. -/
def emplaceIsNew (s : List Cut) (c : Cut) : Bool :=
  ¬ s.any (fun w => cutEq w c)

/-- CutEngine::cutAreaComparision : strictly-less by area, then by
delay.  (The leaf count announced by the header documentation is not
consulted.) -/
def cutAreaComparision (cutA cutB : Cut) : Bool :=
  if cutA.areaCost < cutB.areaCost then true
  else if cutA.areaCost = cutB.areaCost then
    if cutA.delayCost < cutB.delayCost then true else false
  else false

/-- CutEngine::cutDelayComparision : strictly-less by delay, then by
area.  (The leaf count announced by the header documentation is not
consulted.) -/
def cutDelayComparision (cutA cutB : Cut) : Bool :=
  if cutA.delayCost < cutB.delayCost then true
  else if cutA.delayCost = cutB.delayCost then
    if cutA.areaCost < cutB.areaCost then true else false
  else false

/-- Stable insertion of a cut into a list sorted by the strict
comparator comp: the new element lands before the first element that is
not strictly smaller than it. -/
def insertByComp (comp : Cut → Cut → Bool) (x : Cut) : List Cut → List Cut
  | [] => [x]
  | y :: ys => if comp y x then y :: insertByComp comp x ys else x :: y :: ys

/-- Stable sort by the strict comparator comp; realises the
std::sort postcondition (sorted with respect to comp) used by
CutEngine::sortCutSet / sortAndChooseBestCuts. -/
def sortByComp (comp : Cut → Cut → Bool) : List Cut → List Cut
  | [] => []
  | x :: xs => insertByComp comp x (sortByComp comp xs)

/-- MappingGoal enum. -/
inductive MappingGoal where
  | MinimizeArea
  | MinimizeDelay
deriving DecidableEq

/-- CutEngine::sortCutSet. -/
def sortCutSet (cutSet : List Cut) (mappingGoal : MappingGoal) : List Cut :=
  match mappingGoal with
  | .MinimizeArea => sortByComp cutAreaComparision cutSet
  | .MinimizeDelay => sortByComp cutDelayComparision cutSet

/-- CutEngine::sortAndChooseBestCuts : sort, then keep the first c
entries. -/
def sortAndChooseBestCuts (cutSet : List Cut) (c : Nat)
    (mappingGoal : MappingGoal) : List Cut :=
  (sortCutSet cutSet mappingGoal).take c

/-- Model of class AndNode: the two child literals. -/
structure AndNode where
  firstChild : Nat
  secondChild : Nat
deriving DecidableEq

/-- Model of class AndInverterGraph: counts, the AND array (indexed by
and-variable offset) and the output literal list. -/
structure AndInverterGraph where
  numInputs : Nat
  numLatches : Nat
  numAnds : Nat
  andVec : List AndNode
  outputLiteralVector : List Nat
deriving DecidableEq

/-- AndInverterGraph::indexFromLiteral : var = lit >> 1. -/
def indexFromLiteral (literal : Nat) : Nat := literal / 2

/-- AndInverterGraph::literalFromIndex : lit = var << 1. -/
def literalFromIndex (index : Nat) : Nat := 2 * index

/-- AndInverterGraph::nodeIsInput. -/
def nodeIsInput (aig : AndInverterGraph) (nodeLiteral : Nat) : Bool :=
  if nodeLiteral ≤ 1 then false
  else indexFromLiteral nodeLiteral ≤ aig.numInputs

/-- AndInverterGraph::nodeIsLatch. -/
def nodeIsLatch (aig : AndInverterGraph) (nodeLiteral : Nat) : Bool :=
  if nodeLiteral ≤ 1 then false
  else
    indexFromLiteral nodeLiteral ≤ aig.numInputs + aig.numLatches ∧
      aig.numInputs < indexFromLiteral nodeLiteral

/-- AndInverterGraph::nodeIsAnd. -/
def nodeIsAnd (aig : AndInverterGraph) (nodeLiteral : Nat) : Bool :=
  if nodeLiteral ≤ 1 then false
  else
    indexFromLiteral nodeLiteral ≤ aig.numInputs + aig.numLatches + aig.numAnds ∧
      aig.numInputs + aig.numLatches < indexFromLiteral nodeLiteral

/-- AndInverterGraph::getAndNodeFromLiteral. -/
def getAndNodeFromLiteral (aig : AndInverterGraph) (andLiteral : Nat) :
    Except String AndNode :=
  if ¬ nodeIsAnd aig andLiteral then
    .error "getAndNodeFromLiteral : not an and-node literal"
  else
    match aig.andVec.get?
        (indexFromLiteral andLiteral - aig.numInputs - aig.numLatches - 1) with
    | some n => .ok n
    | none => .error "getAndNodeFromLiteral : andVectorIndex out of range"

/-- Immutable CutEngine configuration: the AIG reference, the LUT input
count k, the pruning bound c and the mapping goal. -/
structure EngineConfig where
  aig : AndInverterGraph
  k : Nat
  c : Nat
  mappingGoal : MappingGoal

/-- Mutable CutEngine state: the per-AND CutSet vector (keyed by the
and-variable offset used by vectorIndexFromAndLiteral) and the
implementation map (keyed by literal; absent keys read as false, which
matches the source where every key ever read is initialised to false by
the constructor or defaulted by operator[]). -/
structure EngineState where
  cutSets : Nat → List Cut
  implementationMap : Nat → Bool

/-- Fresh CutEngine state right after the constructor: every CutSet
empty, every implementation flag false. -/
def initEngineState : EngineState :=
  { cutSets := fun _ => [], implementationMap := fun _ => false }

/-- CutEngine::vectorIndexFromAndLiteral, including its range check
against the CutSet vector size (the vector holds numAnds slots). -/
def vectorIndexFromAndLiteral (cfg : EngineConfig) (andLiteral : Nat) :
    Except String Nat :=
  let vectorIndex :=
    indexFromLiteral andLiteral - cfg.aig.numInputs - cfg.aig.numLatches - 1
  if vectorIndex ≥ cfg.aig.numAnds then
    .error "Range overflow. Index used to access _cutSetVector is greater or equal their sizes."
  else
    .ok vectorIndex

/-- Write a CutSet into the engine's CutSet vector slot of andLiteral. -/
def setCutSlot (cfg : EngineConfig) (st : EngineState) (andLiteral : Nat)
    (s : List Cut) : Except String EngineState :=
  match vectorIndexFromAndLiteral cfg andLiteral with
  | .error e => .error e
  | .ok i =>
      .ok { st with cutSets := fun j => if j = i then s else st.cutSets j }

/-- Write one implementation-map entry (std::map operator[] assignment:
inserts the key when absent). -/
def setImplFlag (st : EngineState) (literal : Nat) (b : Bool) : EngineState :=
  { st with implementationMap := fun l => if l = literal then b else st.implementationMap l }

/-- CutEngine::getCutSet. -/
def getCutSet (cfg : EngineConfig) (st : EngineState) (andLiteral : Nat) :
    Except String (List Cut) :=
  if ¬ nodeIsAnd cfg.aig andLiteral then
    .error "Runtime error (getCutSet): the value provided in andLiteral argument is not a valid and-literal for the AndInverterGraph object."
  else
    match vectorIndexFromAndLiteral cfg andLiteral with
    | .error e => .error e
    | .ok i => .ok (st.cutSets i)

/-- CutEngine::getBestCut : the front element of a populated CutSet. -/
def getBestCut (cfg : EngineConfig) (st : EngineState) (andLiteral : Nat) :
    Except String Cut :=
  if ¬ nodeIsAnd cfg.aig andLiteral then
    .error "Runtime error (getBestCut): the value provided in andLiteral argument is not a valid and-literal for the AndInverterGraph object."
  else
    match vectorIndexFromAndLiteral cfg andLiteral with
    | .error e => .error e
    | .ok i =>
        match st.cutSets i with
        | [] => .error "Runtime error (getBestCut): the best cut for the and-node has not been defined yet."
        | best :: _ => .ok best

/-- CutEngine::estimateUnionCutAreaCost : the number of leaves of the
union cut that are AND nodes whose implementation-map entry (read at
the even literal 2*variable) is false. -/
def estimateUnionCutAreaCost (cfg : EngineConfig) (implMap : Nat → Bool)
    (unionCut : Cut) : Nat :=
  (unionCut.leaves.filter
    (fun v => nodeIsAnd cfg.aig (literalFromIndex v) = true ∧
              implMap (literalFromIndex v) = false)).card

/-- CutEngine::estimateUnionCutDelayCost : the larger of the two source
cuts' delays (no +1 stage). -/
def estimateUnionCutDelayCost (cutA cutB : Cut) : Nat :=
  if cutA.delayCost ≥ cutB.delayCost then cutA.delayCost else cutB.delayCost

/-- CutEngine::generateAutoCut : singleton cut at the node's variable.
Input leaves cost (0, 1, 0); AND leaves cost (bestCut.area,
1 + bestCut.delay, 0); anything else (latches included) is rejected. -/
def generateAutoCut (cfg : EngineConfig) (st : EngineState)
    (nodeLiteral : Nat) : Except String Cut :=
  if nodeIsInput cfg.aig nodeLiteral then
    .ok { leaves := {indexFromLiteral nodeLiteral},
          areaCost := 0, delayCost := 1, powerCost := 0 }
  else if nodeIsAnd cfg.aig nodeLiteral then
    match getBestCut cfg st nodeLiteral with
    | .error e => .error e
    | .ok best =>
        .ok { leaves := {indexFromLiteral nodeLiteral},
              areaCost := best.areaCost, delayCost := 1 + best.delayCost,
              powerCost := 0 }
  else
    .error "Runtime error (phiOperation). Child node is neither input nor AND"

/-- Inner loop of CutEngine::diamondOperation: combine one cut of set A
with every cut of set B, accumulating into the diamond set. -/
def diamondInner (cfg : EngineConfig) (implMap : Nat → Bool) (cutA : Cut)
    (cutSetB : List Cut) (acc : List Cut) : Except String (List Cut) :=
  match cutSetB with
  | [] => .ok acc
  | cutB :: rest =>
      match cutUnion cutA cutB with
      | .error e => .error e
      | .ok unionCut =>
          if unionCut.numNodeVariables > cfg.k then
            diamondInner cfg implMap cutA rest acc
          else if ¬ (cutA.allCostsSet ∧ cutB.allCostsSet) then
            .error "The cost of the union of two cuts can only be evaluated if the two cuts have their costs for area, delay and power defined."
          else if acc.any (fun w => cutEq w unionCut) then
            diamondInner cfg implMap cutA rest acc
          else if estimateUnionCutAreaCost cfg implMap unionCut = UNSETCOST then
            .error "Area cost must be in the range."
          else if estimateUnionCutDelayCost cutA cutB = UNSETCOST then
            .error "Delay cost must be in the range."
          else
            diamondInner cfg implMap cutA rest
              (acc ++ [{ leaves := unionCut.leaves,
                         areaCost := estimateUnionCutAreaCost cfg implMap unionCut,
                         delayCost := estimateUnionCutDelayCost cutA cutB,
                         powerCost := 0 }])

/-- Outer loop of CutEngine::diamondOperation. -/
def diamondOuter (cfg : EngineConfig) (implMap : Nat → Bool)
    (cutSetA cutSetB : List Cut) (acc : List Cut) :
    Except String (List Cut) :=
  match cutSetA with
  | [] => .ok acc
  | cutA :: rest =>
      match diamondInner cfg implMap cutA cutSetB acc with
      | .error e => .error e
      | .ok acc2 => diamondOuter cfg implMap rest cutSetB acc2

/-- CutEngine::diamondOperation : all pairwise unions of the two CutSets
with at most k leaves, duplicates merged, costs assigned on first
insertion. -/
def diamondOperation (cfg : EngineConfig) (implMap : Nat → Bool)
    (cutSetA cutSetB : List Cut) : Except String (List Cut) :=
  diamondOuter cfg implMap cutSetA cutSetB []

/-- CutEngine::phiOperation. -/
def phiOperation (cfg : EngineConfig) (st : EngineState) (andLiteral : Nat) :
    Except String (List Cut) :=
  if ¬ nodeIsAnd cfg.aig andLiteral then
    .error "Runtime error (phiOperation): value provided in andLiteral argument is not a valid and-literal for the AndInverterGraph object."
  else
    match getCutSet cfg st andLiteral with
    | .error e => .error e
    | .ok own =>
        if ¬ own.isEmpty then .ok own
        else
          match getAndNodeFromLiteral cfg.aig andLiteral with
          | .error e => .error e
          | .ok an =>
              match (if nodeIsAnd cfg.aig an.firstChild then
                       getCutSet cfg st an.firstChild
                     else .ok []),
                    (if nodeIsAnd cfg.aig an.secondChild then
                       getCutSet cfg st an.secondChild
                     else .ok []) with
              | .error e, _ => .error e
              | _, .error e => .error e
              | .ok firstSlot, .ok secondSlot =>
                  if (nodeIsAnd cfg.aig an.firstChild ∧ firstSlot.isEmpty) ∨
                     (nodeIsAnd cfg.aig an.secondChild ∧ secondSlot.isEmpty) then
                    .error "Runtime error (phiOperation): one or both child nodes of andLiteral are and-nodes but have no CutSet defined."
                  else
                    match (if nodeIsInput cfg.aig an.firstChild then .ok []
                           else getCutSet cfg st an.firstChild),
                          (if nodeIsInput cfg.aig an.secondChild then .ok []
                           else getCutSet cfg st an.secondChild) with
                    | .error e, _ => .error e
                    | _, .error e => .error e
                    | .ok firstChildCutSet, .ok secondChildCutSet =>
                        match generateAutoCut cfg st an.firstChild,
                              generateAutoCut cfg st an.secondChild with
                        | .error e, _ => .error e
                        | _, .error e => .error e
                        | .ok firstChildAutoCut, .ok secondChildAutoCut =>
                            diamondOperation cfg st.implementationMap
                              (emplaceCut firstChildCutSet firstChildAutoCut)
                              (emplaceCut secondChildCutSet secondChildAutoCut)

/-- Strip the polarity bit from a literal: odd literals map to the
canonical even literal of the same variable. -/
def evenLiteral (l : Nat) : Nat := if l % 2 = 1 then l - 1 else l

/-- One child's absorption step inside CutEngine::findCuts: when the new
best cut at the processed node covers all leaves of an AND child's best
cut, clear the child's implementation flag at its canonical even
literal (polarity stripped). -/
def absorbChild (cfg : EngineConfig) (st : EngineState) (bestFront : Cut)
    (childLiteral : Nat) : Except String EngineState :=
  if nodeIsAnd cfg.aig childLiteral then
    match getBestCut cfg st childLiteral with
    | .error e => .error e
    | .ok childBestCut =>
        if childBestCut.leaves ⊆ bestFront.leaves then
          .ok (setImplFlag st (evenLiteral childLiteral) false)
        else .ok st
  else .ok st

/-- The implementation-map update block of CutEngine::findCuts, executed
after the processed node's CutSet is stored (identical in the pruning
and no-pruning branches): when the stored front cut has area 0, mark
the processed literal implemented (exactly as pushed, polarity kept)
and absorb each AND child whose best cut is covered. -/
def implMapUpdate (cfg : EngineConfig) (st : EngineState)
    (currentAndNode firstChildLiteral secondChildLiteral : Nat)
    (bestFront : Cut) : Except String EngineState :=
  if bestFront.areaCost = 0 then
    match absorbChild cfg (setImplFlag st currentAndNode true)
            bestFront firstChildLiteral with
    | .error e => .error e
    | .ok st2 => absorbChild cfg st2 bestFront secondChildLiteral
  else .ok st

/-- What CutEngine::findCuts stores for the processed node: the c best
cuts when pruning is enabled (c > 0), the whole sorted cut set
otherwise. -/
def storedCutSet (cfg : EngineConfig) (s : List Cut) : List Cut :=
  if cfg.c > 0 then sortAndChooseBestCuts s cfg.c cfg.mappingGoal
  else sortCutSet s cfg.mappingGoal

/-- The stack-driven processing loop of CutEngine::findCuts.  The fuel
argument only bounds the iteration count of the while loop; the source
loop iterates until the stack empties. -/
def findCutsLoop (cfg : EngineConfig) (fuel : Nat) (st : EngineState)
    (stack : List Nat) : Except String EngineState :=
  match fuel with
  | 0 => .error "model: out of fuel"
  | fuel + 1 =>
      match stack with
      | [] => .ok st
      | currentAndNode :: rest =>
          match getAndNodeFromLiteral cfg.aig currentAndNode with
          | .error e => .error e
          | .ok an =>
              match (if nodeIsAnd cfg.aig an.firstChild then
                       (getCutSet cfg st an.firstChild).map List.isEmpty
                     else .ok false),
                    (if nodeIsAnd cfg.aig an.secondChild then
                       (getCutSet cfg st an.secondChild).map List.isEmpty
                     else .ok false) with
              | .error e, _ => .error e
              | _, .error e => .error e
              | .ok firstNeedsCuts, .ok secondNeedsCuts =>
                  if firstNeedsCuts then
                    findCutsLoop cfg fuel st (an.firstChild :: currentAndNode :: rest)
                  else if secondNeedsCuts then
                    findCutsLoop cfg fuel st (an.secondChild :: currentAndNode :: rest)
                  else
                    match phiOperation cfg st currentAndNode with
                    | .error e => .error e
                    | .ok currentNodeCutSet =>
                        match setCutSlot cfg st currentAndNode
                                (storedCutSet cfg currentNodeCutSet) with
                        | .error e => .error e
                        | .ok st1 =>
                            match storedCutSet cfg currentNodeCutSet with
                            | [] => .error "model: CutSet.at(0) out of range"
                            | front :: _ =>
                                match implMapUpdate cfg st1 currentAndNode
                                        an.firstChild an.secondChild front with
                                | .error e => .error e
                                | .ok st2 => findCutsLoop cfg fuel st2 rest

/-- CutEngine::findCuts : memo check, stack loop, final sanity check.
Returns the updated engine state (the populated CutSet is read back
through getCutSet). -/
def findCuts (cfg : EngineConfig) (fuel : Nat) (st : EngineState)
    (andLiteral : Nat) : Except String EngineState :=
  if ¬ nodeIsAnd cfg.aig andLiteral then
    .error "Runtime error (phiOperation): value provided in andLiteral argument is not a valid and-literal for the AndInverterGraph object."
  else
    match getCutSet cfg st andLiteral with
    | .error e => .error e
    | .ok own =>
        if ¬ own.isEmpty then .ok st
        else
          match findCutsLoop cfg fuel st [andLiteral] with
          | .error e => .error e
          | .ok st1 =>
              match getCutSet cfg st1 andLiteral with
              | .error e => .error e
              | .ok final =>
                  if final.isEmpty then
                    .error "Runtime error (evaluateCutSet): cut set for andLiteral remains undefined after processing due to errors."
                  else .ok st1

/-- CutEngine::run : findCuts for every primary-output literal that is
an AND. -/
def cutEngineRun (cfg : EngineConfig) (fuel : Nat) (st : EngineState) :
    Except String EngineState :=
  cfg.aig.outputLiteralVector.foldlM
    (fun s o => if nodeIsAnd cfg.aig o then findCuts cfg fuel s o else .ok s)
    st

/-- Mutable TechMapper state: the engine it drives, its own
implementation map and the accumulated area/delay costs. -/
structure TmState where
  engine : EngineState
  implementationMap : Nat → Bool
  mappingAreaCost : Nat
  mappingDelayCost : Nat

/-- Fresh TechMapper state right after the constructor. -/
def initTmState (eng : EngineState) : TmState :=
  { engine := eng, implementationMap := fun _ => false,
    mappingAreaCost := 0, mappingDelayCost := 0 }

/-- One pass of TechMapper::run's inner frontier iteration: process the
and-literals of the current set in ascending order (std::set order),
marking the unimplemented ones, counting a LUT for each and collecting
the AND leaves of their best cuts for the next pass. -/
def tmFrontierStep (cfg : EngineConfig) (eng : EngineState) :
    List Nat → ((Nat → Bool) × Nat × Finset Nat) →
    Except String ((Nat → Bool) × Nat × Finset Nat)
  | [], acc => .ok acc
  | nodeLiteral :: rest, (implMap, area, nextIteration) =>
      if implMap nodeLiteral = false then
        match getBestCut cfg eng nodeLiteral with
        | .error e => .error e
        | .ok nodeLiteralBestCut =>
            tmFrontierStep cfg eng rest
              ((fun l => if l = nodeLiteral then true else implMap l),
               area + 1,
               nextIteration ∪
                 ((nodeLiteralBestCut.leaves.filter
                    (fun v => nodeIsAnd cfg.aig (literalFromIndex v) = true)).image
                   literalFromIndex))
      else tmFrontierStep cfg eng rest (implMap, area, nextIteration)

/-- TechMapper::run's while loop over frontier sets, fuelled. -/
def tmFrontierLoop (cfg : EngineConfig) (eng : EngineState) (fuel : Nat)
    (implMap : Nat → Bool) (area : Nat) (currentIteration : Finset Nat) :
    Except String ((Nat → Bool) × Nat) :=
  match fuel with
  | 0 => .error "model: out of fuel"
  | fuel + 1 =>
      if currentIteration = ∅ then .ok (implMap, area)
      else
        match tmFrontierStep cfg eng
                (currentIteration.sort (· ≤ ·)) (implMap, area, ∅) with
        | .error e => .error e
        | .ok (implMap2, area2, nextIteration) =>
            tmFrontierLoop cfg eng fuel implMap2 area2 nextIteration

/-- Processing of one primary-output literal inside TechMapper::run. -/
def tmProcessOutput (cfg : EngineConfig) (fuel : Nat) (s : TmState)
    (outputLiteral : Nat) : Except String TmState :=
  if nodeIsAnd cfg.aig outputLiteral then
    if s.implementationMap (evenLiteral outputLiteral) = false then
      match findCuts cfg fuel s.engine outputLiteral with
      | .error e => .error e
      | .ok eng2 =>
          match getBestCut cfg eng2 (evenLiteral outputLiteral) with
          | .error e => .error e
          | .ok outputBestCut =>
              match tmFrontierLoop cfg eng2 fuel
                      (fun l => if l = evenLiteral outputLiteral then true
                                else s.implementationMap l)
                      (s.mappingAreaCost + 1)
                      ((outputBestCut.leaves.filter
                        (fun v => nodeIsAnd cfg.aig (literalFromIndex v) = true)).image
                        literalFromIndex) with
              | .error e => .error e
              | .ok (implMap2, area2) =>
                  .ok { engine := eng2, implementationMap := implMap2,
                        mappingAreaCost := area2,
                        mappingDelayCost :=
                          if s.mappingDelayCost < outputBestCut.delayCost then
                            outputBestCut.delayCost
                          else s.mappingDelayCost }
    else .ok s
  else if nodeIsInput cfg.aig outputLiteral ∨ outputLiteral < 2 then
    .ok { s with mappingAreaCost := s.mappingAreaCost + 1,
                 mappingDelayCost :=
                   if s.mappingDelayCost < 1 then 1 else s.mappingDelayCost }
  else .ok s

/-- TechMapper::run : iterate over all primary outputs. -/
def tmRun (cfg : EngineConfig) (fuel : Nat) (s : TmState) :
    Except String TmState :=
  cfg.aig.outputLiteralVector.foldlM (tmProcessOutput cfg fuel) s

/-- The full pipeline on a fresh engine: CutEngine::run (cut
enumeration for every AND output) followed by TechMapper::run on a
fresh TechMapper, reporting (LUT count, Levels) as printed by
TechMapper::printResults. -/
def pipelineReport (cfg : EngineConfig) (fuel : Nat) :
    Except String (Nat × Nat) :=
  match cutEngineRun cfg fuel initEngineState with
  | .error e => .error e
  | .ok eng =>
      match tmRun cfg fuel (initTmState eng) with
      | .error e => .error e
      | .ok s => .ok (s.mappingAreaCost, s.mappingDelayCost)

/-- Model of the main driver's control flow (src/main.cpp): main is a
function-try-block whose handler prints a diagnostic to stderr and then
flows off the end of the handler; for main this is equivalent to
returning 0 (C++ [except.handle] p10 together with [basic.start.main]
p5).  The model maps the outcome of the guarded body to the pair
(process exit code, whether a diagnostic was written to stderr). -/
def mainModel (body : Except String Unit) : Nat × Bool :=
  match body with
  | .ok _ => (0, false)
  | .error _ => (0, true)

/-- Scenario S3 of the specification: inputs 2 and 4; ANDs 6 = 2 AND 4,
8 = 6 AND 2, 10 = 6 AND 4; outputs 8 and 10.  (AIGER stores children
with first child at least the second, so 6 carries children (4, 2).) -/
def aigS3 : AndInverterGraph :=
  { numInputs := 2, numLatches := 0, numAnds := 3,
    andVec := [⟨4, 2⟩, ⟨6, 2⟩, ⟨6, 4⟩],
    outputLiteralVector := [8, 10] }

/-- S3 configuration: k = 2, c = 0, goal MinimizeArea. -/
def cfgS3 : EngineConfig := ⟨aigS3, 2, 0, .MinimizeArea⟩

/-- Scenario S1: a single AND 6 = 4 AND 2 over two inputs, output 6. -/
def aigS1 : AndInverterGraph :=
  { numInputs := 2, numLatches := 0, numAnds := 1,
    andVec := [⟨4, 2⟩], outputLiteralVector := [6] }

/-- S1 configuration: k = 2, c = 0, goal MinimizeArea. -/
def cfgS1 : EngineConfig := ⟨aigS1, 2, 0, .MinimizeArea⟩

/-- One input (variable 1), one latch (variable 2), one AND
6 = 4 AND 2 whose first child is the latch literal 4; output 6. -/
def aigLatchChild : AndInverterGraph :=
  { numInputs := 1, numLatches := 1, numAnds := 1,
    andVec := [⟨4, 2⟩], outputLiteralVector := [6] }

/-- Latch-child configuration: k = 2, c = 0, goal MinimizeArea. -/
def cfgLatchChild : EngineConfig := ⟨aigLatchChild, 2, 0, .MinimizeArea⟩

/-- Two inputs; AND 6 = 4 AND 2 referenced only through the negated
edge 7 by AND 8 = 7 AND 2; output 8.  Node variable 3 is therefore
reached (and pushed on the work stack) only as the odd literal 7. -/
def aigOddEdge : AndInverterGraph :=
  { numInputs := 2, numLatches := 0, numAnds := 2,
    andVec := [⟨4, 2⟩, ⟨7, 2⟩], outputLiteralVector := [8] }

/-- Negated-edge configuration: k = 2, c = 0, goal MinimizeArea. -/
def cfgOddEdge : EngineConfig := ⟨aigOddEdge, 2, 0, .MinimizeArea⟩

/-- Degenerate design whose only primary output is the constant FALSE
literal 0 (scenario S4 of the specification). -/
def aigConstOut : AndInverterGraph :=
  { numInputs := 0, numLatches := 0, numAnds := 0,
    andVec := [], outputLiteralVector := [0] }

/-- Constant-output configuration: k = 2, c = 0, goal MinimizeArea. -/
def cfgConstOut : EngineConfig := ⟨aigConstOut, 2, 0, .MinimizeArea⟩

/-- The engine state produced by findCuts on scenario S1's output 6
(total function extracted from the Except result). -/
def s1FinalState : EngineState :=
  match findCuts cfgS1 50 initEngineState 6 with
  | .ok st => st
  | .error _ => initEngineState

/-- The engine state produced by findCuts on the negated-edge design's
output 8. -/
def oddEdgeFinalState : EngineState :=
  match findCuts cfgOddEdge 50 initEngineState 8 with
  | .ok st => st
  | .error _ => initEngineState

/-- The TechMapper state after one run on scenario S1. -/
def s1TmState : TmState :=
  match tmRun cfgS1 50 (initTmState initEngineState) with
  | .ok s => s
  | .error _ => initTmState initEngineState

/-- Boolean failure test for an Except value. -/
def exceptFailed {α : Type} : Except String α → Bool
  | .error _ => true
  | .ok _ => false

/-- Shape of a cut produced (newly inserted) by the diamond operation
from the generating pair (x, y): leaves are the set union, the leaf
count passed the k-feasibility filter, and the three costs are the ones
assigned at insertion time. -/
def unionShape (cfg : EngineConfig) (implMap : Nat → Bool)
    (x y u : Cut) : Prop :=
  u.leaves = x.leaves ∪ y.leaves ∧
  u.leaves.card ≤ cfg.k ∧
  u.areaCost = estimateUnionCutAreaCost cfg implMap u ∧
  u.delayCost = estimateUnionCutDelayCost x y ∧
  u.powerCost = 0

/-- Where a cut fed into the diamond operation by phi comes from:
either it was copied out of a stored CutSet slot, or it is an autocut
(a singleton with delay at least 1). -/
def childSource (st : EngineState) (x : Cut) : Prop :=
  (∃ i, x ∈ st.cutSets i) ∨ (1 ≤ x.delayCost ∧ x.leaves.card = 1)

/-- A per-cut property holding for every cut stored in any CutSet slot
of the engine. -/
def slotInv (P : Cut → Prop) (st : EngineState) : Prop :=
  ∀ i c, c ∈ st.cutSets i → P c

/-- The best cut stored for AND literal 6 after findCuts on scenario
S1 (total-function extraction from the Except result). -/
def s1BestCut : Cut :=
  match getBestCut cfgS1 s1FinalState 6 with
  | .ok c => c
  | .error _ => Cut.mk ∅ 0 0 0

/-- The CutSet stored for AND literal 6 after findCuts on scenario S1. -/
def s1StoredCutSet : List Cut :=
  match getCutSet cfgS1 s1FinalState 6 with
  | .ok cs => cs
  | .error _ => []

theorem mem_insertByComp (comp : Cut → Cut → Bool) (x c : Cut) (l : List Cut) :
    c ∈ insertByComp comp x l ↔ c = x ∨ c ∈ l := by
  induction l with
  | nil => simp [insertByComp]
  | cons y ys ih =>
      unfold insertByComp
      by_cases h : comp y x = true
      · rw [if_pos h]
        simp only [List.mem_cons, ih]
        tauto
      · rw [if_neg h]
        simp only [List.mem_cons]

theorem mem_sortByComp (comp : Cut → Cut → Bool) (c : Cut) (l : List Cut) :
    c ∈ sortByComp comp l ↔ c ∈ l := by
  induction l with
  | nil => simp [sortByComp]
  | cons y ys ih => simp [sortByComp, mem_insertByComp, ih]

theorem mem_sortCutSet (c : Cut) (l : List Cut) (g : MappingGoal) :
    c ∈ sortCutSet l g ↔ c ∈ l := by
  cases g <;> simp [sortCutSet, mem_sortByComp]

theorem mem_sortAndChooseBestCuts (c : Cut) (l : List Cut) (n : Nat)
    (g : MappingGoal) : c ∈ sortAndChooseBestCuts l n g → c ∈ l := by
  intro h
  exact (mem_sortCutSet c l g).mp (List.take_subset n _ h)

theorem mem_emplaceCut (s : List Cut) (x c : Cut) :
    c ∈ emplaceCut s x → c ∈ s ∨ c = x := by
  unfold emplaceCut
  by_cases h : s.any (fun w => cutEq w x) = true
  · rw [if_pos h]
    exact Or.inl
  · rw [if_neg h]
    simp only [List.mem_append, List.mem_singleton]
    exact id

theorem getCutSet_ok {cfg : EngineConfig} {st : EngineState} {a : Nat}
    {s : List Cut} (h : getCutSet cfg st a = .ok s) :
    ∃ i, s = st.cutSets i := by
  unfold getCutSet at h
  split at h
  · cases h
  · split at h
    · cases h
    · rename_i i hi
      injection h with h2
      exact ⟨i, h2.symm⟩

theorem getBestCut_ok {cfg : EngineConfig} {st : EngineState} {a : Nat}
    {cu : Cut} (h : getBestCut cfg st a = .ok cu) :
    ∃ i, cu ∈ st.cutSets i := by
  unfold getBestCut at h
  split at h
  · cases h
  · split at h
    · cases h
    · split at h
      · cases h
      · rename_i xscr iN okEq lscr best rest hrest
        injection h with h2
        exact ⟨iN, by rw [hrest, h2]; exact List.mem_cons_self _ _⟩

theorem setCutSlot_ok {cfg : EngineConfig} {st : EngineState} {a : Nat}
    {s : List Cut} {st1 : EngineState}
    (h : setCutSlot cfg st a s = .ok st1) :
    st1.implementationMap = st.implementationMap ∧
      ∀ j c, c ∈ st1.cutSets j → c ∈ s ∨ c ∈ st.cutSets j := by
  unfold setCutSlot at h
  split at h
  · cases h
  · rename_i i hi
    injection h with h2
    subst h2
    refine ⟨rfl, ?_⟩
    intro j c hc
    by_cases hj : j = i
    · simp only [hj, if_true] at hc
      exact Or.inl hc
    · simp only [hj, if_false] at hc
      exact Or.inr hc

theorem absorbChild_ok {cfg : EngineConfig} {st : EngineState} {bf : Cut}
    {cl : Nat} {st2 : EngineState}
    (h : absorbChild cfg st bf cl = .ok st2) :
    st2.cutSets = st.cutSets ∧
      ∀ l, st.implementationMap l = false → st2.implementationMap l = false := by
  unfold absorbChild at h
  split at h
  · split at h
    · cases h
    · split at h
      · injection h with h2
        subst h2
        refine ⟨rfl, ?_⟩
        intro l hl
        unfold setImplFlag
        by_cases hc : l = evenLiteral cl <;> simp [hc, hl]
      · injection h with h2
        subst h2
        exact ⟨rfl, fun l hl => hl⟩
  · injection h with h2
    subst h2
    exact ⟨rfl, fun l hl => hl⟩

theorem implMapUpdate_ok {cfg : EngineConfig} {st : EngineState}
    {t c0 c1 : Nat} {bf : Cut} {st2 : EngineState}
    (h : implMapUpdate cfg st t c0 c1 bf = .ok st2) :
    st2.cutSets = st.cutSets ∧
      ∀ l, l ≠ t → st.implementationMap l = false →
        st2.implementationMap l = false := by
  unfold implMapUpdate at h
  split at h
  · split at h
    · cases h
    · rename_i st1 habs1
      have h1 := absorbChild_ok habs1
      have h2 := absorbChild_ok h
      refine ⟨by rw [h2.1, h1.1]; rfl, ?_⟩
      intro l hl hfalse
      refine h2.2 l (h1.2 l ?_)
      unfold setImplFlag
      simp only [hl, if_false]
      exact hfalse
  · injection h with h2
    subst h2
    exact ⟨rfl, fun l _ hl => hl⟩

theorem cutUnion_ok {a b u : Cut} (h : cutUnion a b = .ok u) :
    u.leaves = a.leaves ∪ b.leaves ∧ a.leaves ≠ ∅ ∧ b.leaves ≠ ∅ := by
  unfold cutUnion at h
  split at h
  · cases h
  · rename_i hne
    push_neg at hne
    injection h with h2
    subst h2
    exact ⟨rfl, hne.1, hne.2⟩

theorem diamondInner_sound {cfg : EngineConfig} {implMap : Nat → Bool}
    {x : Cut} {B acc res : List Cut}
    (h : diamondInner cfg implMap x B acc = .ok res) :
    ∀ u ∈ res, u ∈ acc ∨ ∃ y ∈ B, unionShape cfg implMap x y u := by
  induction B generalizing acc with
  | nil =>
      unfold diamondInner at h
      injection h with h2
      subst h2
      exact fun u hu => Or.inl hu
  | cons y ys ih =>
      unfold diamondInner at h
      split at h
      · cases h
      · rename_i u0 hu0
        have hu0s := cutUnion_ok hu0
        split at h
        · intro u hu
          rcases ih h u hu with hacc | ⟨y2, hy2, hs⟩
          · exact Or.inl hacc
          · exact Or.inr ⟨y2, List.mem_cons_of_mem y hy2, hs⟩
        · rename_i hk
          split at h
          · cases h
          · split at h
            · intro u hu
              rcases ih h u hu with hacc | ⟨y2, hy2, hs⟩
              · exact Or.inl hacc
              · exact Or.inr ⟨y2, List.mem_cons_of_mem y hy2, hs⟩
            · split at h
              · cases h
              · split at h
                · cases h
                · intro u hu
                  rcases ih h u hu with hacc | ⟨y2, hy2, hs⟩
                  · rcases List.mem_append.mp hacc with h1 | h1
                    · exact Or.inl h1
                    · refine Or.inr ⟨y, List.mem_cons_self y ys, ?_⟩
                      have hu2 : u = Cut.mk u0.leaves
                          (estimateUnionCutAreaCost cfg implMap u0)
                          (estimateUnionCutDelayCost x y) 0 :=
                        List.mem_singleton.mp h1
                      subst hu2
                      refine ⟨hu0s.1, ?_, rfl, rfl, rfl⟩
                      have : ¬ u0.numNodeVariables > cfg.k := hk
                      simpa [Cut.numNodeVariables] using Nat.le_of_not_lt this
                  · exact Or.inr ⟨y2, List.mem_cons_of_mem y hy2, hs⟩

theorem diamondOuter_sound {cfg : EngineConfig} {implMap : Nat → Bool}
    {A B acc res : List Cut}
    (h : diamondOuter cfg implMap A B acc = .ok res) :
    ∀ u ∈ res, u ∈ acc ∨ ∃ x ∈ A, ∃ y ∈ B, unionShape cfg implMap x y u := by
  induction A generalizing acc with
  | nil =>
      unfold diamondOuter at h
      injection h with h2
      subst h2
      exact fun u hu => Or.inl hu
  | cons x xs ih =>
      unfold diamondOuter at h
      split at h
      · cases h
      · rename_i acc2 hacc2
        intro u hu
        rcases ih h u hu with h1 | ⟨x2, hx2, hs⟩
        · rcases diamondInner_sound hacc2 u h1 with h2 | ⟨y, hy, hs⟩
          · exact Or.inl h2
          · exact Or.inr ⟨x, List.mem_cons_self x xs, y, hy, hs⟩
        · exact Or.inr ⟨x2, List.mem_cons_of_mem x hx2, hs.choose, hs.choose_spec.1, hs.choose_spec.2⟩

theorem diamondOperation_sound {cfg : EngineConfig} {implMap : Nat → Bool}
    {A B res : List Cut}
    (h : diamondOperation cfg implMap A B = .ok res) :
    ∀ u ∈ res, ∃ x ∈ A, ∃ y ∈ B, unionShape cfg implMap x y u := by
  intro u hu
  rcases diamondOuter_sound h u hu with h1 | h1
  · cases h1
  · exact h1

theorem generateAutoCut_ok {cfg : EngineConfig} {st : EngineState}
    {n : Nat} {c : Cut} (h : generateAutoCut cfg st n = .ok c) :
    1 ≤ c.delayCost ∧ c.leaves.card = 1 := by
  unfold generateAutoCut at h
  split at h
  · injection h with h2
    subst h2
    exact ⟨le_refl 1, Finset.card_singleton _⟩
  · split at h
    · split at h
      · cases h
      · injection h with h2
        subst h2
        exact ⟨Nat.le_add_right 1 _, Finset.card_singleton _⟩
    · cases h

theorem phiOperation_cases {cfg : EngineConfig} {st : EngineState}
    {a : Nat} {s : List Cut} (h : phiOperation cfg st a = .ok s) :
    (∃ i, s = st.cutSets i) ∨
      ∀ u ∈ s, ∃ x y, childSource st x ∧ childSource st y ∧
        unionShape cfg st.implementationMap x y u := by
  unfold phiOperation at h
  split at h
  · cases h
  · split at h
    · cases h
    · rename_i own hown
      split at h
      · injection h with h2
        subst h2
        exact Or.inl (getCutSet_ok hown)
      · split at h
        · cases h
        · rename_i an han
          split at h
          · cases h
          · cases h
          · rename_i fprobe sprobe hfp hsp
            split at h
            · cases h
            · split at h
              · cases h
              · cases h
              · rename_i fcs scs hfcs hscs
                split at h
                · cases h
                · cases h
                · rename_i ac0 ac1 hac0 hac1
                  refine Or.inr ?_
                  intro u hu
                  rcases diamondOperation_sound h u hu with ⟨x, hx, y, hy, hs⟩
                  refine ⟨x, y, ?_, ?_, hs⟩
                  · rcases mem_emplaceCut _ _ _ hx with hx1 | hx1
                    · left
                      revert hx1
                      split at hfcs
                      · injection hfcs with h3
                        subst h3
                        intro hx1
                        cases hx1
                      · intro hx1
                        rcases getCutSet_ok hfcs with ⟨i, hi⟩
                        exact ⟨i, hi ▸ hx1⟩
                    · subst hx1
                      exact Or.inr (generateAutoCut_ok hac0)
                  · rcases mem_emplaceCut _ _ _ hy with hy1 | hy1
                    · left
                      revert hy1
                      split at hscs
                      · injection hscs with h3
                        subst h3
                        intro hy1
                        cases hy1
                      · intro hy1
                        rcases getCutSet_ok hscs with ⟨i, hi⟩
                        exact ⟨i, hi ▸ hy1⟩
                    · subst hy1
                      exact Or.inr (generateAutoCut_ok hac1)

theorem mem_storedCutSet (cfg : EngineConfig) (c : Cut) (s : List Cut) :
    c ∈ storedCutSet cfg s → c ∈ s := by
  unfold storedCutSet
  split
  · exact mem_sortAndChooseBestCuts c s cfg.c cfg.mappingGoal
  · exact (mem_sortCutSet c s cfg.mappingGoal).mp

theorem findCutsLoop_preserves {cfg : EngineConfig} {P : Cut → Prop}
    {fuel : Nat} {st : EngineState} {stack : List Nat} {st' : EngineState}
    (hphi : ∀ st2 a s, slotInv P st2 → phiOperation cfg st2 a = .ok s →
      ∀ u ∈ s, P u)
    (hInv : slotInv P st)
    (h : findCutsLoop cfg fuel st stack = .ok st') : slotInv P st' := by
  induction fuel generalizing st stack with
  | zero => cases h
  | succ fuel ih =>
      unfold findCutsLoop at h
      split at h
      · injection h with h2
        subst h2
        exact hInv
      · rename_i currentAndNode rest
        split at h
        · cases h
        · rename_i an han
          split at h
          · cases h
          · cases h
          · rename_i fneed sneed hfp hsp
            split at h
            · exact ih hInv h
            · split at h
              · exact ih hInv h
              · split at h
                · cases h
                · rename_i cns hphi2
                  split at h
                  · cases h
                  · rename_i st1 hslot
                    split at h
                    · cases h
                    · rename_i front tail hstored
                      split at h
                      · cases h
                      · rename_i st2 hupd
                        refine ih ?_ h
                        have hs1 := setCutSlot_ok hslot
                        have hs2 := implMapUpdate_ok hupd
                        intro j c hc
                        rw [hs2.1] at hc
                        rcases hs1.2 j c hc with h1 | h1
                        · exact hphi st currentAndNode cns hInv hphi2 c
                            (mem_storedCutSet cfg c cns (hstored ▸ h1))
                        · exact hInv j c h1

theorem findCuts_preserves {cfg : EngineConfig} {P : Cut → Prop}
    {fuel : Nat} {st : EngineState} {a : Nat} {st' : EngineState}
    (hphi : ∀ st2 a2 s, slotInv P st2 → phiOperation cfg st2 a2 = .ok s →
      ∀ u ∈ s, P u)
    (hInv : slotInv P st)
    (h : findCuts cfg fuel st a = .ok st') : slotInv P st' := by
  unfold findCuts at h
  split at h
  · cases h
  · split at h
    · cases h
    · split at h
      · injection h with h2
        subst h2
        exact hInv
      · split at h
        · cases h
        · rename_i st1 hloop
          split at h
          · cases h
          · split at h
            · cases h
            · injection h with h2
              subst h2
              exact findCutsLoop_preserves hphi hInv hloop

theorem phiOperation_delay {cfg : EngineConfig} {st : EngineState}
    {a : Nat} {s : List Cut}
    (hInv : slotInv (fun c => 1 ≤ c.delayCost) st)
    (h : phiOperation cfg st a = .ok s) : ∀ u ∈ s, 1 ≤ u.delayCost := by
  rcases phiOperation_cases h with ⟨i, hi⟩ | hmem
  · subst hi
    exact fun u hu => hInv i u hu
  · intro u hu
    rcases hmem u hu with ⟨x, y, hx, hy, hs⟩
    have hxd : 1 ≤ x.delayCost := by
      rcases hx with ⟨i, hix⟩ | hx2
      · exact hInv i x hix
      · exact hx2.1
    have hyd : 1 ≤ y.delayCost := by
      rcases hy with ⟨i, hiy⟩ | hy2
      · exact hInv i y hiy
      · exact hy2.1
    rw [hs.2.2.2.1]
    unfold estimateUnionCutDelayCost
    split
    · exact hxd
    · exact hyd

theorem phiOperation_card {cfg : EngineConfig} {st : EngineState}
    {a : Nat} {s : List Cut}
    (hInv : slotInv (fun c => c.leaves.card ≤ cfg.k) st)
    (h : phiOperation cfg st a = .ok s) : ∀ u ∈ s, u.leaves.card ≤ cfg.k := by
  rcases phiOperation_cases h with ⟨i, hi⟩ | hmem
  · subst hi
    exact fun u hu => hInv i u hu
  · intro u hu
    rcases hmem u hu with ⟨x, y, hx, hy, hs⟩
    exact hs.2.1

/-- C1 (counterexample): on scenario S3 (inputs 2 and 4, ANDs 6 = 2 AND 4,
8 = 6 AND 2, 10 = 6 AND 4, outputs 8 and 10) with k = 2, c = 0 and goal
MinArea, the full pipeline does not report LUT count 3 and Levels 2. -/
theorem c1_counterexample : pipelineReport cfgS3 100 ≠ .ok (3, 2) := by decide

/-- C1 (amended): on scenario S3 with k = 2, c = 0 and goal MinArea the
full pipeline (CutEngine run, then TechMapper run) reports LUT count 2
and Levels 1: the enumeration finds the two-input cut on the primary
inputs for both outputs, so the shared LUT at literal 6 is never
counted. -/
theorem c1_pipeline_s3 : pipelineReport cfgS3 100 = .ok (2, 1) := by decide

/-- C2 (counterexample): after findCuts on scenario S1, the CutSet of
AND literal 6 is populated (it holds exactly one cut) yet the singleton
trivial cut at var(6) = 3 occurs zero times in it, not exactly once. -/
theorem c2_counterexample :
    findCuts cfgS1 50 initEngineState 6 = .ok s1FinalState ∧
    (getCutSet cfgS1 s1FinalState 6).map List.length = .ok 1 ∧
    (getCutSet cfgS1 s1FinalState 6).map
      (fun cs => cs.countP
        (fun cu => decide (cu.leaves = {indexFromLiteral 6}))) = .ok 0 := by
  refine ⟨rfl, by decide, by decide⟩

/-- C2 (amended): every cut in any CutSet populated by findCuts has at
most k leaves; the singleton cut at var(a), however, is not a member of
a's own stored CutSet (autocuts are emplaced only into the parent's
local copies of child cut sets during phi). -/
theorem c2_cut_size_bound {cfg : EngineConfig} {fuel : Nat}
    {st : EngineState} {a : Nat} {st' : EngineState} {target : Nat}
    {cs : List Cut} {cu : Cut}
    (hInv : slotInv (fun c => c.leaves.card ≤ cfg.k) st)
    (hrun : findCuts cfg fuel st a = .ok st')
    (hcs : getCutSet cfg st' target = .ok cs) (hcu : cu ∈ cs) :
    cu.numNodeVariables ≤ cfg.k := by
  have hInv2 := findCuts_preserves
    (fun st2 a2 s h1 h2 => phiOperation_card h1 h2) hInv hrun
  rcases getCutSet_ok hcs with ⟨i, hi⟩
  exact hInv2 i cu (hi ▸ hcu)

/-- C2 (witness): the size bound evaluated on scenario S1's populated
CutSet at literal 6. -/
theorem c2_witness : s1BestCut.numNodeVariables ≤ cfgS1.k :=
  c2_cut_size_bound
    (fun i c hc => absurd hc (List.not_mem_nil c))
    (rfl : findCuts cfgS1 50 initEngineState 6 = .ok s1FinalState)
    (rfl : getCutSet cfgS1 s1FinalState 6 = .ok s1StoredCutSet)
    (List.mem_cons_self _ _)

/-- C8: for every AND node whose cut set has been populated by
findCuts (starting from any engine state whose stored cuts satisfy the
bound, the fresh state included), the best cut's delay cost is at least
1. -/
theorem c8_bestCut_delay {cfg : EngineConfig} {fuel : Nat}
    {st : EngineState} {a : Nat} {st' : EngineState} {target : Nat}
    {cu : Cut}
    (hInv : slotInv (fun c => 1 ≤ c.delayCost) st)
    (hrun : findCuts cfg fuel st a = .ok st')
    (hbest : getBestCut cfg st' target = .ok cu) : 1 ≤ cu.delayCost := by
  have hInv2 := findCuts_preserves
    (fun st2 a2 s h1 h2 => phiOperation_delay h1 h2) hInv hrun
  rcases getBestCut_ok hbest with ⟨i, hi⟩
  exact hInv2 i cu hi

/-- C8 (witness): the delay bound evaluated on scenario S1's best cut
at literal 6. -/
theorem c8_witness : 1 ≤ s1BestCut.delayCost :=
  c8_bestCut_delay
    (fun i c hc => absurd hc (List.not_mem_nil c))
    (rfl : findCuts cfgS1 50 initEngineState 6 = .ok s1FinalState)
    (rfl : getBestCut cfgS1 s1FinalState 6 = .ok s1BestCut)

theorem latch_not_and {aig : AndInverterGraph} {l : Nat}
    (h : nodeIsLatch aig l = true) : nodeIsAnd aig l = false := by
  unfold nodeIsLatch at h
  unfold nodeIsAnd
  split at h
  · cases h
  · rename_i hgt
    rw [if_neg hgt]
    simp only [decide_eq_true_eq] at h
    apply decide_eq_false
    intro hand
    omega

theorem latch_not_input {aig : AndInverterGraph} {l : Nat}
    (h : nodeIsLatch aig l = true) : nodeIsInput aig l = false := by
  unfold nodeIsLatch at h
  unfold nodeIsInput
  split at h
  · cases h
  · rename_i hgt
    rw [if_neg hgt]
    simp only [decide_eq_true_eq] at h
    apply decide_eq_false
    intro hin
    omega

theorem getCutSet_not_and {cfg : EngineConfig} {st : EngineState} {l : Nat}
    (h : nodeIsAnd cfg.aig l = false) :
    getCutSet cfg st l = .error "Runtime error (getCutSet): the value provided in andLiteral argument is not a valid and-literal for the AndInverterGraph object." := by
  unfold getCutSet
  rw [if_pos]
  simp [h]

/-- C3 (counterexample): on the design whose AND 6 has the latch
literal 4 as first child, phi fails: the child's cut set is fetched
through getCutSet, which rejects the latch literal; no empty CutSet or
input-like autocut is ever produced for the latch. -/
theorem c3_counterexample :
    phiOperation cfgLatchChild initEngineState 6 =
      .error "Runtime error (getCutSet): the value provided in andLiteral argument is not a valid and-literal for the AndInverterGraph object." := rfl

/-- C3 (amended): phi fails on every AND node (with an unevaluated cut
set) one of whose children is a latch: latches are not treated as
input-like leaf boundaries; the child cut-set fetch (or the autocut
generation) raises instead. -/
theorem c3_phi_fails_on_latch_child {cfg : EngineConfig}
    {st : EngineState} {a : Nat} {an : AndNode}
    (ha : nodeIsAnd cfg.aig a = true)
    (hempty : getCutSet cfg st a = .ok [])
    (han : getAndNodeFromLiteral cfg.aig a = .ok an)
    (hlatch : nodeIsLatch cfg.aig an.firstChild = true ∨
      nodeIsLatch cfg.aig an.secondChild = true) :
    exceptFailed (phiOperation cfg st a) = true := by
  unfold phiOperation
  simp only [ha, hempty, han, not_true, if_false, List.isEmpty_nil,
    Bool.not_true]
  rcases hlatch with h0 | h0
  · have hna := latch_not_and h0
    have hni := latch_not_input h0
    rw [if_neg (by simp [hna])]
    cases hsec : (if nodeIsAnd cfg.aig an.secondChild = true then
        getCutSet cfg st an.secondChild else Except.ok []) with
    | error e => simp [hsec, exceptFailed]
    | ok s2 =>
        simp only [hsec]
        by_cases hr : nodeIsAnd cfg.aig an.secondChild = true ∧
            s2.isEmpty = true
        · rw [if_pos (Or.inr hr)]
          simp [exceptFailed]
        · rw [if_neg ?_]
          · rw [if_neg (by simp [hni]), getCutSet_not_and hna]
            simp [exceptFailed]
          · rintro (hl | hrr)
            · rw [hna] at hl
              exact absurd hl.1 (by simp)
            · exact hr hrr
  · have hna := latch_not_and h0
    have hni := latch_not_input h0
    cases hfst : (if nodeIsAnd cfg.aig an.firstChild = true then
        getCutSet cfg st an.firstChild else Except.ok []) with
    | error e => simp [hfst, exceptFailed]
    | ok s1 =>
        rw [if_neg (show ¬ (nodeIsAnd cfg.aig an.secondChild = true) by
          simp [hna])]
        by_cases hr : nodeIsAnd cfg.aig an.firstChild = true ∧
            s1.isEmpty = true
        · simp [exceptFailed, hr.1, hr.2]
        · cases hfc : (if nodeIsInput cfg.aig an.firstChild = true then
              Except.ok [] else getCutSet cfg st an.firstChild) with
          | error e =>
              simp only [exceptFailed, hr, hna, hfc]
              split
              · rfl
              · rename_i heq
                split at heq <;> cases heq
          | ok fcs =>
              simp [exceptFailed, hr, hna, hni, hfc, getCutSet_not_and hna]
              split
              · rfl
              · rename_i heq
                split at heq <;> cases heq

/-- C3 (witness): the amended failure theorem evaluated on the concrete
latch-child design. -/
theorem c3_witness :
    exceptFailed (phiOperation cfgLatchChild initEngineState 6) = true :=
  @c3_phi_fails_on_latch_child cfgLatchChild initEngineState 6
    (AndNode.mk 4 2) (by decide) rfl rfl (Or.inl (by decide))

/-- C4: with equal area and equal delay but leaf counts 1 and 2, both
comparators return false in both argument orders: the cut with fewer
leaves does not precede the other, contradicting the stated
(area, delay, leafCount) and (delay, area, leafCount) lexicographic
orders and the comparators' own header documentation. -/
theorem c4_comparators_ignore_leaf_count :
    cutAreaComparision (Cut.mk {1} 0 1 0) (Cut.mk {2, 3} 0 1 0) = false ∧
    cutAreaComparision (Cut.mk {2, 3} 0 1 0) (Cut.mk {1} 0 1 0) = false ∧
    cutDelayComparision (Cut.mk {1} 0 1 0) (Cut.mk {2, 3} 0 1 0) = false ∧
    cutDelayComparision (Cut.mk {2, 3} 0 1 0) (Cut.mk {1} 0 1 0) = false ∧
    (Cut.mk {1} 0 1 0).numNodeVariables < (Cut.mk {2, 3} 0 1 0).numNodeVariables := by
  refine ⟨rfl, rfl, rfl, rfl, by decide⟩

/-- C6: the main driver's catch handler writes a diagnostic to stderr
but then flows off the end of the function-try-block handler of main,
which the language defines to return 0; so a failing run exits with
code 0, not a nonzero code (a successful run also exits 0, without the
diagnostic). -/
theorem c6_failure_exits_zero :
    mainModel (.error "Unable to open the input file") = (0, true) ∧
    mainModel (.ok ()) = (0, false) := ⟨rfl, rfl⟩

/-- C9: the union of two cuts fails exactly when an operand has an
empty leaf set and otherwise carries the set union with all three
costs unset (the sentinel, rejected by allCostsSet); Cut equality tests
only the leaf sets, ignoring costs. -/
theorem c9_union_and_equality (a b : Cut) :
    cutUnion a b = (if a.leaves = ∅ ∨ b.leaves = ∅ then
        .error "The union of two cuts (operator +) cannot be evaluated if any of the two cuts have an empty variable set."
      else .ok (Cut.mk (a.leaves ∪ b.leaves) UNSETCOST UNSETCOST UNSETCOST)) ∧
    (Cut.mk (a.leaves ∪ b.leaves) UNSETCOST UNSETCOST UNSETCOST).allCostsSet
      = false ∧
    (cutEq a b = true ↔ a.leaves = b.leaves) := by
  refine ⟨rfl, by simp [Cut.allCostsSet], ?_⟩
  unfold cutEq
  by_cases h : a.leaves = b.leaves <;> simp [h]

/-- C5 (counterexample): on the design whose only primary output is the
constant FALSE literal 0, one TechMapper run reports area 1, but a
second run on the same TechMapper state reports area 2: run is not
idempotent when an output is a constant (or a primary input). -/
theorem c5_counterexample :
    (tmRun cfgConstOut 10 (initTmState initEngineState)).map
      TmState.mappingAreaCost = .ok 1 ∧
    ((tmRun cfgConstOut 10 (initTmState initEngineState)).bind
      (fun s => tmRun cfgConstOut 10 s)).map TmState.mappingAreaCost
      = .ok 2 := ⟨rfl, rfl⟩

theorem tmFrontierStep_mono {cfg : EngineConfig} {eng : EngineState}
    {ls : List Nat} {implMap : Nat → Bool} {area : Nat} {nxt : Finset Nat}
    {implMap2 : Nat → Bool} {area2 : Nat} {nxt2 : Finset Nat}
    (h : tmFrontierStep cfg eng ls (implMap, area, nxt) =
      .ok (implMap2, area2, nxt2)) :
    ∀ l, implMap l = true → implMap2 l = true := by
  induction ls generalizing implMap area nxt with
  | nil =>
      unfold tmFrontierStep at h
      injection h with h2
      rw [show implMap = implMap2 from congrArg Prod.fst h2]
      exact fun l hl => hl
  | cons n rest ih =>
      unfold tmFrontierStep at h
      split at h
      · split at h
        · cases h
        · intro l hl
          refine ih h l ?_
          by_cases hn : l = n <;> simp [hn, hl]
      · exact ih h

theorem tmFrontierLoop_mono {cfg : EngineConfig} {eng : EngineState}
    {fuel : Nat} {implMap : Nat → Bool} {area : Nat} {cur : Finset Nat}
    {implMap2 : Nat → Bool} {area2 : Nat}
    (h : tmFrontierLoop cfg eng fuel implMap area cur =
      .ok (implMap2, area2)) :
    ∀ l, implMap l = true → implMap2 l = true := by
  induction fuel generalizing implMap area cur with
  | zero => cases h
  | succ fuel ih =>
      unfold tmFrontierLoop at h
      split at h
      · injection h with h2
        rw [show implMap = implMap2 from congrArg Prod.fst h2]
        exact fun l hl => hl
      · split at h
        · cases h
        · rename_i implMap3 area3 nxt3 hstep
          exact fun l hl => ih h l (tmFrontierStep_mono hstep l hl)

theorem tmProcessOutput_mono {cfg : EngineConfig} {fuel : Nat}
    {s : TmState} {o : Nat} {s2 : TmState}
    (h : tmProcessOutput cfg fuel s o = .ok s2) :
    ∀ l, s.implementationMap l = true → s2.implementationMap l = true := by
  unfold tmProcessOutput at h
  split at h
  · split at h
    · split at h
      · cases h
      · split at h
        · cases h
        · split at h
          · cases h
          · rename_i eng2 heng best hbest implMap2 area2 hloop
            injection h with h2
            subst h2
            intro l hl
            refine tmFrontierLoop_mono hloop l ?_
            by_cases he : l = evenLiteral o <;> simp [he, hl]
    · injection h with h2
      subst h2
      exact fun l hl => hl
  · split at h
    · injection h with h2
      subst h2
      exact fun l hl => hl
    · injection h with h2
      subst h2
      exact fun l hl => hl

theorem tmProcessOutput_marks {cfg : EngineConfig} {fuel : Nat}
    {s : TmState} {o : Nat} {s2 : TmState}
    (h : tmProcessOutput cfg fuel s o = .ok s2)
    (hAnd : nodeIsAnd cfg.aig o = true) :
    s2.implementationMap (evenLiteral o) = true := by
  unfold tmProcessOutput at h
  rw [if_pos hAnd] at h
  split at h
  · split at h
    · cases h
    · split at h
      · cases h
      · split at h
        · cases h
        · rename_i eng2 heng best hbest implMap2 area2 hloop
          injection h with h2
          subst h2
          exact tmFrontierLoop_mono hloop (evenLiteral o) (by simp)
  · rename_i himpl
    injection h with h2
    subst h2
    simpa using himpl

theorem tmFold_mono {cfg : EngineConfig} {fuel : Nat} {os : List Nat}
    {s s1 : TmState}
    (h : os.foldlM (tmProcessOutput cfg fuel) s = .ok s1) :
    ∀ l, s.implementationMap l = true → s1.implementationMap l = true := by
  induction os generalizing s with
  | nil =>
      rw [List.foldlM_nil] at h
      injection h with h2
      subst h2
      exact fun l hl => hl
  | cons o os ih =>
      rw [List.foldlM_cons] at h
      cases hstep : tmProcessOutput cfg fuel s o with
      | error e =>
          rw [hstep] at h
          cases h
      | ok smid =>
          rw [hstep] at h
          replace h : os.foldlM (tmProcessOutput cfg fuel) smid = .ok s1 := h
          exact fun l hl => ih h l (tmProcessOutput_mono hstep l hl)

theorem tmFold_marks {cfg : EngineConfig} {fuel : Nat} {os : List Nat}
    {s s1 : TmState}
    (h : os.foldlM (tmProcessOutput cfg fuel) s = .ok s1) :
    ∀ o ∈ os, nodeIsAnd cfg.aig o = true →
      s1.implementationMap (evenLiteral o) = true := by
  induction os generalizing s with
  | nil => intro o ho; cases ho
  | cons o2 os ih =>
      rw [List.foldlM_cons] at h
      cases hstep : tmProcessOutput cfg fuel s o2 with
      | error e =>
          rw [hstep] at h
          cases h
      | ok smid =>
          rw [hstep] at h
          replace h : os.foldlM (tmProcessOutput cfg fuel) smid = .ok s1 := h
          intro o ho hAnd
          rcases List.mem_cons.mp ho with rfl | ho2
          · exact tmFold_mono h _ (tmProcessOutput_marks hstep hAnd)
          · exact ih h o ho2 hAnd

theorem tmProcessOutput_skip {cfg : EngineConfig} {fuel : Nat}
    {s : TmState} {o : Nat}
    (hmarked : nodeIsAnd cfg.aig o = true →
      s.implementationMap (evenLiteral o) = true)
    (hno : nodeIsInput cfg.aig o = false) (hge : ¬ o < 2) :
    tmProcessOutput cfg fuel s o = .ok s := by
  unfold tmProcessOutput
  by_cases hAnd : nodeIsAnd cfg.aig o = true
  · rw [if_pos hAnd, if_neg (by simp [hmarked hAnd])]
  · rw [if_neg hAnd, if_neg (by simp [hno, hge])]

/-- C5 (amended): TechMapper::run is idempotent whenever no primary
output is a primary input or a constant literal: a second run on the
state left by the first returns that state unchanged, so the reported
area and depth are unchanged.  (The counterexample shows the restriction
is necessary: input and constant outputs are re-counted on every run.) -/
theorem c5_run_idempotent {cfg : EngineConfig} {fuel : Nat}
    {s s1 : TmState}
    (hout : ∀ o ∈ cfg.aig.outputLiteralVector,
      nodeIsInput cfg.aig o = false ∧ ¬ o < 2)
    (h : tmRun cfg fuel s = .ok s1) : tmRun cfg fuel s1 = .ok s1 := by
  unfold tmRun at h ⊢
  have hmarks := tmFold_marks h
  have haux : ∀ os : List Nat,
      (∀ o ∈ os, (nodeIsAnd cfg.aig o = true →
          s1.implementationMap (evenLiteral o) = true) ∧
        nodeIsInput cfg.aig o = false ∧ ¬ o < 2) →
      os.foldlM (tmProcessOutput cfg fuel) s1 = .ok s1 := by
    intro os hos
    induction os with
    | nil =>
        rw [List.foldlM_nil]
        rfl
    | cons o2 os2 ih =>
        rw [List.foldlM_cons,
          tmProcessOutput_skip (hos o2 (List.mem_cons_self o2 os2)).1
            (hos o2 (List.mem_cons_self o2 os2)).2.1
            (hos o2 (List.mem_cons_self o2 os2)).2.2]
        exact ih (fun o ho => hos o (List.mem_cons_of_mem o2 ho))
  exact haux cfg.aig.outputLiteralVector
    (fun o ho => ⟨hmarks o ho, (hout o ho).1, (hout o ho).2⟩)

/-- C5 (witness): idempotence evaluated on scenario S1 (whose sole
output is an AND literal). -/
theorem c5_witness : tmRun cfgS1 50 s1TmState = .ok s1TmState :=
  c5_run_idempotent
    (by
      intro o ho
      rcases List.mem_singleton.mp ho with rfl
      exact ⟨by decide, by decide⟩)
    (rfl : tmRun cfgS1 50 (initTmState initEngineState) = .ok s1TmState)

theorem getAndNodeFromLiteral_mem {aig : AndInverterGraph} {a : Nat}
    {nd : AndNode} (h : getAndNodeFromLiteral aig a = .ok nd) :
    nd ∈ aig.andVec := by
  unfold getAndNodeFromLiteral at h
  split at h
  · cases h
  · split at h
    · rename_i n hn
      injection h with h2
      subst h2
      exact List.get?_mem hn
    · cases h

theorem findCutsLoop_no_even_mark {cfg : EngineConfig} {fuel : Nat}
    {st : EngineState} {stack : List Nat} {st' : EngineState} {v : Nat}
    (hch : ∀ nd ∈ cfg.aig.andVec,
      nd.firstChild ≠ literalFromIndex v ∧ nd.secondChild ≠ literalFromIndex v)
    (hstack : ∀ l ∈ stack, l ≠ literalFromIndex v)
    (hfalse : st.implementationMap (literalFromIndex v) = false)
    (h : findCutsLoop cfg fuel st stack = .ok st') :
    st'.implementationMap (literalFromIndex v) = false := by
  induction fuel generalizing st stack with
  | zero => cases h
  | succ fuel ih =>
      unfold findCutsLoop at h
      split at h
      · injection h with h2
        subst h2
        exact hfalse
      · rename_i t rest
        split at h
        · cases h
        · rename_i an han
          have hanmem := getAndNodeFromLiteral_mem han
          split at h
          · cases h
          · cases h
          · split at h
            · refine ih ?_ hfalse h
              intro l hl
              rcases List.mem_cons.mp hl with rfl | hl2
              · exact (hch an hanmem).1
              · exact hstack l hl2
            · split at h
              · refine ih ?_ hfalse h
                intro l hl
                rcases List.mem_cons.mp hl with rfl | hl2
                · exact (hch an hanmem).2
                · exact hstack l hl2
              · split at h
                · cases h
                · split at h
                  · cases h
                  · rename_i st1 hslot
                    split at h
                    · cases h
                    · split at h
                      · cases h
                      · rename_i st2 hupd
                        refine ih
                          (fun l hl => hstack l (List.mem_cons_of_mem t hl))
                          ?_ h
                        refine (implMapUpdate_ok hupd).2 _
                          (Ne.symm (hstack t (List.mem_cons_self t rest)))
                          ?_
                        rw [(setCutSlot_ok hslot).1]
                        exact hfalse

/-- C10: when every reference to AND variable v (work-stack seeds and
and-node children) carries the negated polarity, findCuts never writes
the canonical even literal 2*v: whatever marking happens lands on the
odd key, the entry at the even literal stays false, and
estimateUnionCutAreaCost (which reads only even literals) still counts
v as unimplemented in every later area estimate. -/
theorem c10_even_literal_stays_unimplemented {cfg : EngineConfig}
    {fuel : Nat} {st : EngineState} {andLit : Nat} {st' : EngineState}
    {v : Nat}
    (hch : ∀ nd ∈ cfg.aig.andVec,
      nd.firstChild ≠ literalFromIndex v ∧ nd.secondChild ≠ literalFromIndex v)
    (hseed : andLit ≠ literalFromIndex v)
    (hfalse : st.implementationMap (literalFromIndex v) = false)
    (h : findCuts cfg fuel st andLit = .ok st') :
    st'.implementationMap (literalFromIndex v) = false ∧
      (nodeIsAnd cfg.aig (literalFromIndex v) = true →
        ∀ u : Cut, v ∈ u.leaves →
          1 ≤ estimateUnionCutAreaCost cfg st'.implementationMap u) := by
  have hmain : st'.implementationMap (literalFromIndex v) = false := by
    unfold findCuts at h
    split at h
    · cases h
    · split at h
      · cases h
      · split at h
        · injection h with h2
          subst h2
          exact hfalse
        · split at h
          · cases h
          · rename_i st1 hloop
            split at h
            · cases h
            · split at h
              · cases h
              · injection h with h2
                subst h2
                exact findCutsLoop_no_even_mark hch
                  (fun l hl => by
                    rcases List.mem_singleton.mp hl with rfl
                    exact hseed)
                  hfalse hloop
  refine ⟨hmain, ?_⟩
  intro hAnd u hv
  unfold estimateUnionCutAreaCost
  refine Finset.card_pos.mpr ⟨v, Finset.mem_filter.mpr ⟨hv, hAnd, hmain⟩⟩

/-- C10 (witness): on the negated-edge design (where AND 6 is referenced
only through literal 7), after findCuts on output 8 the even key 6 is
still unimplemented and the area estimate charges one LUT for a cut
containing variable 3. -/
theorem c10_witness :
    oddEdgeFinalState.implementationMap 6 = false ∧
      1 ≤ estimateUnionCutAreaCost cfgOddEdge
            oddEdgeFinalState.implementationMap (Cut.mk {1, 3} 0 0 0) := by
  have H := c10_even_literal_stays_unimplemented (v := 3)
    (by decide)
    (by decide)
    rfl
    (rfl : findCuts cfgOddEdge 50 initEngineState 8 = .ok oddEdgeFinalState)
  exact ⟨H.1, H.2 (by decide) (Cut.mk {1, 3} 0 0 0) (by decide)⟩

theorem estimateUnionCutDelayCost_eq_max (x y : Cut) :
    estimateUnionCutDelayCost x y = max x.delayCost y.delayCost := by
  unfold estimateUnionCutDelayCost
  split
  · rename_i hge
    exact (Nat.max_eq_left hge).symm
  · rename_i hlt
    exact (Nat.max_eq_right (Nat.le_of_not_le hlt)).symm

theorem diamondInner_mono {cfg : EngineConfig} {implMap : Nat → Bool}
    {x : Cut} {B acc res : List Cut}
    (h : diamondInner cfg implMap x B acc = .ok res) :
    ∀ u ∈ acc, u ∈ res := by
  induction B generalizing acc with
  | nil =>
      unfold diamondInner at h
      injection h with h2
      subst h2
      exact fun u hu => hu
  | cons y ys ih =>
      unfold diamondInner at h
      split at h
      · cases h
      · split at h
        · exact ih h
        · split at h
          · cases h
          · split at h
            · exact ih h
            · split at h
              · cases h
              · split at h
                · cases h
                · exact fun u hu =>
                    ih h u (List.mem_append.mpr (Or.inl hu))

theorem diamondInner_pairwise {cfg : EngineConfig} {implMap : Nat → Bool}
    {x : Cut} {B acc res : List Cut}
    (h : diamondInner cfg implMap x B acc = .ok res)
    (hacc : acc.Pairwise (fun u w => u.leaves ≠ w.leaves)) :
    res.Pairwise (fun u w => u.leaves ≠ w.leaves) := by
  induction B generalizing acc with
  | nil =>
      unfold diamondInner at h
      injection h with h2
      subst h2
      exact hacc
  | cons y ys ih =>
      unfold diamondInner at h
      split at h
      · cases h
      · rename_i u0 hu0
        split at h
        · exact ih h hacc
        · split at h
          · cases h
          · split at h
            · exact ih h hacc
            · rename_i hnotpresent
              split at h
              · cases h
              · split at h
                · cases h
                · refine ih h ?_
                  rw [List.pairwise_append]
                  refine ⟨hacc, List.pairwise_singleton _ _, ?_⟩
                  intro a ha b hb
                  rw [List.mem_singleton.mp hb]
                  intro heq
                  refine hnotpresent ?_
                  refine List.any_eq_true.mpr ⟨a, ha, ?_⟩
                  unfold cutEq
                  rw [if_pos heq]

theorem cutEq_true {a b : Cut} (h : cutEq a b = true) : a.leaves = b.leaves := by
  unfold cutEq at h
  split at h
  · assumption
  · cases h

theorem allCostsSet_parts {x : Cut} (h : x.allCostsSet = true) :
    x.areaCost ≠ UNSETCOST ∧ x.delayCost ≠ UNSETCOST ∧
      x.powerCost ≠ UNSETCOST := by
  unfold Cut.allCostsSet at h
  simpa using h

theorem cutUnion_success {x y : Cut} (hx : x.leaves ≠ ∅) (hy : y.leaves ≠ ∅) :
    cutUnion x y =
      .ok (Cut.mk (x.leaves ∪ y.leaves) UNSETCOST UNSETCOST UNSETCOST) := by
  unfold cutUnion
  rw [if_neg]
  intro hor
  rcases hor with h1 | h1
  · exact hx h1
  · exact hy h1

theorem diamondInner_complete {cfg : EngineConfig} {implMap : Nat → Bool}
    {x : Cut} {B acc res : List Cut}
    (h : diamondInner cfg implMap x B acc = .ok res) :
    ∀ y ∈ B, (x.leaves ∪ y.leaves).card ≤ cfg.k →
      ∃ u ∈ res, u.leaves = x.leaves ∪ y.leaves := by
  induction B generalizing acc with
  | nil => intro y hy; cases hy
  | cons y2 ys ih =>
      unfold diamondInner at h
      split at h
      · cases h
      · rename_i u0 hu0
        have hl := (cutUnion_ok hu0).1
        split at h
        · rename_i hgt
          intro y hy hcard
          rcases List.mem_cons.mp hy with rfl | hy2
          · exfalso
            unfold Cut.numNodeVariables at hgt
            rw [hl] at hgt
            omega
          · exact ih h y hy2 hcard
        · split at h
          · cases h
          · split at h
            · rename_i hpresent
              intro y hy hcard
              rcases List.mem_cons.mp hy with rfl | hy2
              · rcases List.any_eq_true.mp hpresent with ⟨w, hw, hwq⟩
                exact ⟨w, diamondInner_mono h w hw, by rw [cutEq_true hwq, hl]⟩
              · exact ih h y hy2 hcard
            · split at h
              · cases h
              · split at h
                · cases h
                · intro y hy hcard
                  rcases List.mem_cons.mp hy with rfl | hy2
                  · refine ⟨_, diamondInner_mono h _
                      (List.mem_append.mpr (Or.inr (List.mem_singleton.mpr rfl))), hl⟩
                  · exact ih h y hy2 hcard

theorem diamondInner_success {cfg : EngineConfig} {implMap : Nat → Bool}
    {x : Cut} {B : List Cut} (acc : List Cut)
    (hx1 : x.allCostsSet = true) (hx2 : x.leaves ≠ ∅)
    (hB : ∀ y ∈ B, y.allCostsSet = true ∧ y.leaves ≠ ∅)
    (hk : cfg.k < UNSETCOST) :
    ∃ res, diamondInner cfg implMap x B acc = .ok res := by
  induction B generalizing acc with
  | nil => exact ⟨acc, rfl⟩
  | cons y ys ih =>
      have hy := hB y (List.mem_cons_self y ys)
      have hyB : ∀ y2 ∈ ys, y2.allCostsSet = true ∧ y2.leaves ≠ ∅ :=
        fun y2 h2 => hB y2 (List.mem_cons_of_mem y h2)
      cases hres : diamondInner cfg implMap x (y :: ys) acc with
      | ok res => exact ⟨res, rfl⟩
      | error e =>
          exfalso
          unfold diamondInner at hres
          split at hres
          · rename_i hu
            rw [cutUnion_success hx2 hy.2] at hu
            cases hu
          · rename_i u0 hu0
            split at hres
            · rcases ih acc hyB with ⟨res2, hres2⟩
              rw [hres2] at hres
              cases hres
            · split at hres
              · rename_i hcosts
                exact hcosts ⟨hx1, hy.1⟩
              · split at hres
                · rcases ih acc hyB with ⟨res2, hres2⟩
                  rw [hres2] at hres
                  cases hres
                · split at hres
                  · rename_i hnk hcosts hany harea
                    have hle : estimateUnionCutAreaCost cfg implMap u0 ≤
                        u0.leaves.card := Finset.card_filter_le _ _
                    unfold Cut.numNodeVariables at hnk
                    omega
                  · split at hres
                    · rename_i hdelay
                      rw [estimateUnionCutDelayCost_eq_max] at hdelay
                      rcases max_choice x.delayCost y.delayCost with
                        hm | hm
                      · exact (allCostsSet_parts hx1).2.1 (hm ▸ hdelay)
                      · exact (allCostsSet_parts hy.1).2.1 (hm ▸ hdelay)
                    · rcases ih (acc ++
                        [Cut.mk u0.leaves
                          (estimateUnionCutAreaCost cfg implMap u0)
                          (estimateUnionCutDelayCost x y) 0]) hyB with ⟨res2, hres2⟩
                      rw [hres2] at hres
                      cases hres

theorem diamondOuter_mono {cfg : EngineConfig} {implMap : Nat → Bool}
    {A B acc res : List Cut}
    (h : diamondOuter cfg implMap A B acc = .ok res) :
    ∀ u ∈ acc, u ∈ res := by
  induction A generalizing acc with
  | nil =>
      unfold diamondOuter at h
      injection h with h2
      subst h2
      exact fun u hu => hu
  | cons x xs ih =>
      unfold diamondOuter at h
      split at h
      · cases h
      · rename_i acc2 hacc2
        exact fun u hu => ih h u (diamondInner_mono hacc2 u hu)

theorem diamondOuter_pairwise {cfg : EngineConfig} {implMap : Nat → Bool}
    {A B acc res : List Cut}
    (h : diamondOuter cfg implMap A B acc = .ok res)
    (hacc : acc.Pairwise (fun u w => u.leaves ≠ w.leaves)) :
    res.Pairwise (fun u w => u.leaves ≠ w.leaves) := by
  induction A generalizing acc with
  | nil =>
      unfold diamondOuter at h
      injection h with h2
      subst h2
      exact hacc
  | cons x xs ih =>
      unfold diamondOuter at h
      split at h
      · cases h
      · rename_i acc2 hacc2
        exact ih h (diamondInner_pairwise hacc2 hacc)

theorem diamondOuter_complete {cfg : EngineConfig} {implMap : Nat → Bool}
    {A B acc res : List Cut}
    (h : diamondOuter cfg implMap A B acc = .ok res) :
    ∀ x ∈ A, ∀ y ∈ B, (x.leaves ∪ y.leaves).card ≤ cfg.k →
      ∃ u ∈ res, u.leaves = x.leaves ∪ y.leaves := by
  induction A generalizing acc with
  | nil => intro x hx; cases hx
  | cons x2 xs ih =>
      unfold diamondOuter at h
      split at h
      · cases h
      · rename_i acc2 hacc2
        intro x hx y hy hcard
        rcases List.mem_cons.mp hx with rfl | hx2
        · rcases diamondInner_complete hacc2 y hy hcard with ⟨u, hu, hul⟩
          exact ⟨u, diamondOuter_mono h u hu, hul⟩
        · exact ih h x hx2 y hy hcard

theorem diamondOuter_success {cfg : EngineConfig} {implMap : Nat → Bool}
    {A B : List Cut} (acc : List Cut)
    (hA : ∀ x ∈ A, x.allCostsSet = true ∧ x.leaves ≠ ∅)
    (hB : ∀ y ∈ B, y.allCostsSet = true ∧ y.leaves ≠ ∅)
    (hk : cfg.k < UNSETCOST) :
    ∃ res, diamondOuter cfg implMap A B acc = .ok res := by
  induction A generalizing acc with
  | nil => exact ⟨acc, rfl⟩
  | cons x xs ih =>
      have hx := hA x (List.mem_cons_self x xs)
      have hxA : ∀ x2 ∈ xs, x2.allCostsSet = true ∧ x2.leaves ≠ ∅ :=
        fun x2 h2 => hA x2 (List.mem_cons_of_mem x h2)
      rcases @diamondInner_success cfg implMap x B acc
        hx.1 hx.2 hB hk with ⟨acc2, hacc2⟩
      rcases ih acc2 hxA with ⟨res, hres⟩
      refine ⟨res, ?_⟩
      unfold diamondOuter
      rw [hacc2]
      exact hres

/-- C7 (counterexample): two CutSets whose single cuts both have all
three costs set, yet the diamond operation raises (the first cut's leaf
set is empty, rejected by the union operator) instead of returning the
merged set of pairwise unions. -/
theorem c7_counterexample :
    (Cut.mk ∅ 0 1 0).allCostsSet = true ∧
    (Cut.mk {1} 0 1 0).allCostsSet = true ∧
    diamondOperation cfgS1 (fun _ => false)
      [Cut.mk ∅ 0 1 0] [Cut.mk {1} 0 1 0] =
      .error "The union of two cuts (operator +) cannot be evaluated if any of the two cuts have an empty variable set." := by
  refine ⟨by decide, by decide, rfl⟩

/-- C7 (amended): when every cut of the two CutSets has its three costs
set and a non-empty leaf set (and k is below the cost sentinel), the
diamond operation succeeds and returns exactly the pairwise unions with
at most k leaves, duplicates by leaf set merged, each inserted union
carrying area = number of its leaves that are unimplemented AND nodes,
delay = max of the generating pair's delays (no +1), and power = 0. -/
theorem c7_diamond_characterisation {cfg : EngineConfig}
    {implMap : Nat → Bool} {A B : List Cut}
    (hA : ∀ x ∈ A, x.allCostsSet = true ∧ x.leaves ≠ ∅)
    (hB : ∀ y ∈ B, y.allCostsSet = true ∧ y.leaves ≠ ∅)
    (hk : cfg.k < UNSETCOST) :
    exceptFailed (diamondOperation cfg implMap A B) = false ∧
    ∀ res, diamondOperation cfg implMap A B = .ok res →
      (∀ u ∈ res, ∃ x ∈ A, ∃ y ∈ B,
        u.leaves = x.leaves ∪ y.leaves ∧ u.leaves.card ≤ cfg.k ∧
        u.areaCost = estimateUnionCutAreaCost cfg implMap u ∧
        u.delayCost = max x.delayCost y.delayCost ∧ u.powerCost = 0) ∧
      (∀ x ∈ A, ∀ y ∈ B, (x.leaves ∪ y.leaves).card ≤ cfg.k →
        ∃ u ∈ res, u.leaves = x.leaves ∪ y.leaves) ∧
      res.Pairwise (fun u w => u.leaves ≠ w.leaves) := by
  constructor
  · rcases @diamondOuter_success cfg implMap A B [] hA hB hk with ⟨res, hres⟩
    unfold diamondOperation
    rw [hres]
    rfl
  · intro res hres
    refine ⟨?_, ?_, ?_⟩
    · intro u hu
      rcases diamondOperation_sound hres u hu with ⟨x, hx, y, hy, hs⟩
      exact ⟨x, hx, y, hy, hs.1, hs.2.1, hs.2.2.1,
        by rw [hs.2.2.2.1, estimateUnionCutDelayCost_eq_max], hs.2.2.2.2⟩
    · exact fun x hx y hy hc => diamondOuter_complete hres x hx y hy hc
    · exact diamondOuter_pairwise hres List.Pairwise.nil

/-- C7 (witness): the success half of the characterisation evaluated on
two concrete singleton CutSets. -/
theorem c7_witness :
    exceptFailed (diamondOperation cfgS1 (fun _ => false)
      [Cut.mk {1} 0 1 0] [Cut.mk {2} 0 1 0]) = false :=
  (c7_diamond_characterisation
    (by
      intro x hx
      rcases List.mem_singleton.mp hx with rfl
      exact ⟨by decide, by decide⟩)
    (by
      intro y hy
      rcases List.mem_singleton.mp hy with rfl
      exact ⟨by decide, by decide⟩)
    (by decide)).1
